import Mathlib

/-!
Verification of the `ethdigest` crate: a 32-byte Ethereum digest value type
with a hex codec (`src/hex.rs`), a stack formatting buffer (`src/buffer.rs`),
a Keccak-256 streaming hasher wrapper (`src/keccak.rs`), serde integration
(`src/serde.rs`) and build-time literal macros (`macros/src/lib.rs`).

Rust strings are UTF-8 byte sequences; we model a `&str` as a `List Char`
together with an explicit UTF-8 encoding function, because the codec in
`src/hex.rs` operates on the *byte* representation (`s.len()`,
`s.as_bytes()`), while its reported error characters come from the character
representation (`s[i..].chars().next()`).  Bytes are modelled as `Nat`
(values `< 256` where the Rust type `u8` guarantees it).
-/

deriving instance DecidableEq for Except

namespace Ethdigest

/-- Number of bytes in the UTF-8 encoding of a character
(Rust `char::len_utf8`). -/
def utf8Size (c : Char) : Nat :=
  if c.toNat < 0x80 then 1
  else if c.toNat < 0x800 then 2
  else if c.toNat < 0x10000 then 3
  else 4

/-- The UTF-8 encoding of one character as a byte list. -/
def utf8EncodeChar (c : Char) : List Nat :=
  let n := c.toNat
  if n < 0x80 then [n]
  else if n < 0x800 then
    [0xC0 + n / 0x40, 0x80 + n % 0x40]
  else if n < 0x10000 then
    [0xE0 + n / 0x1000, 0x80 + n / 0x40 % 0x40, 0x80 + n % 0x40]
  else
    [0xF0 + n / 0x40000, 0x80 + n / 0x1000 % 0x40, 0x80 + n / 0x40 % 0x40,
      0x80 + n % 0x40]

/-- The UTF-8 encoding of a string as a byte list (Rust `str::as_bytes`). -/
def utf8Encode (s : List Char) : List Nat :=
  (s.map utf8EncodeChar).flatten

/-! ## `src/hex.rs` -/

/-- `ParseDigestError` from `src/hex.rs`. -/
inductive ParseDigestError
  | InvalidLength
  | InvalidHexCharacter (c : Char) (index : Nat)
deriving DecidableEq

/-- The `nibble` closure of `hex::decode`: maps an input byte to its 4-bit
value, `b'0'..=b'9' => c - b'0'`, `b'A'..=b'F' => c - b'A' + 0xa`,
`b'a'..=b'f' => c - b'a' + 0xa`, anything else to `None`. -/
def nibble (c : Nat) : Option Nat :=
  if 0x30 ≤ c ∧ c ≤ 0x39 then some (c - 0x30)
  else if 0x41 ≤ c ∧ c ≤ 0x46 then some (c - 0x41 + 0xa)
  else if 0x61 ≤ c ∧ c ≤ 0x66 then some (c - 0x61 + 0xa)
  else none

/-- The character produced by `s[i..].chars().next().unwrap()`: the character
of `s` whose UTF-8 encoding starts at byte offset `i`.  The `'A'` results are
where the Rust expression would panic (slicing inside a code point, or
unwrapping at/after the end of the string); `hex::decode` only evaluates it at
the byte offset of the first non-hex-digit byte, where every preceding byte is
a one-byte ASCII hex digit, so those branches are unreachable from `decode`. -/
def firstCharAt : List Char → Nat → Char
  | [], _ => 'A'
  | c :: cs, i =>
    if i = 0 then c
    else if i < utf8Size c then 'A'
    else firstCharAt cs (i - utf8Size c)

/-- The decoding loop of `hex::decode`: `s.as_bytes().chunks(2)`, mapping each
byte through `nibble`, erroring with `invalid_char` at the byte offset of the
first failure and combining pairs as `(hi << 4) + lo`.  `rem` is the stripped
character string (used only to recover the offending `char`), `off` the
stripped-prefix length, `i` the current byte offset.  The `[b]` singleton
chunk can only arise from an odd byte count; `decode` always passes exactly 64
bytes, so after a successful `nibble ch[0]` the Rust `ch[1]` panic is
unreachable and we return the empty tail. -/
def decodePairs (rem : List Char) (off : Nat) : Nat → List Nat →
    Except ParseDigestError (List Nat)
  | _, [] => .ok []
  | i, [b] =>
    match nibble b with
    | none => .error (.InvalidHexCharacter (firstCharAt rem i) (i + off))
    | some _ => .ok []
  | i, b0 :: b1 :: bs =>
    match nibble b0 with
    | none => .error (.InvalidHexCharacter (firstCharAt rem i) (i + off))
    | some hi =>
      match nibble b1 with
      | none =>
        .error (.InvalidHexCharacter (firstCharAt rem (i + 1)) (i + 1 + off))
      | some lo =>
        (decodePairs rem off (i + 2) bs).map fun t => (hi * 16 + lo) :: t

/-- `s.strip_prefix("0x")`: strips exactly the two ASCII characters `0x`
(case-sensitively), returning the remainder on a match. -/
def strip0x (s : List Char) : Option (List Char) :=
  match s with
  | c0 :: c1 :: rest => if c0 = '0' ∧ c1 = 'x' then some rest else none
  | _ => none

/-- The prefix-stripping `match` opening `hex::decode`: the remaining string
and the character offset (2 if `0x` was stripped, 0 otherwise). -/
def stripped (s : List Char) : List Char × Nat :=
  match strip0x s with
  | some rest => (rest, 2)
  | none => (s, 0)

/-- `hex::decode` from `src/hex.rs`: strip an optional `0x` prefix, fail with
`InvalidLength` unless exactly 64 bytes remain, then decode the 32
two-byte chunks. -/
def decode (s : List Char) : Except ParseDigestError (List Nat) :=
  if (utf8Encode (stripped s).1).length ≠ 64 then .error .InvalidLength
  else decodePairs (stripped s).1 (stripped s).2 0 (utf8Encode (stripped s).1)

/-- The `Display` implementation for `ParseDigestError`. -/
def ParseDigestError.message : ParseDigestError → List Char
  | .InvalidLength => "invalid hex string length".toList
  | .InvalidHexCharacter c index =>
    "invalid character `".toList ++ [c] ++ "` at position ".toList ++
      Nat.toDigits 10 index

/-! ## `src/buffer.rs` -/

/-- `Alphabet` from `src/buffer.rs`. -/
inductive Alphabet
  | Lower
  | Upper
deriving DecidableEq

/-- `#[derive(Default)]` with `#[default]` on `Lower`. -/
def Alphabet.default : Alphabet := .Lower

/-- `Alphabet::lut`: the 16-entry nibble lookup table,
`b"0123456789abcdef"` or `b"0123456789ABCDEF"`. -/
def Alphabet.lut : Alphabet → List Nat
  | .Lower => [0x30, 0x31, 0x32, 0x33, 0x34, 0x35, 0x36, 0x37, 0x38, 0x39,
      0x61, 0x62, 0x63, 0x64, 0x65, 0x66]
  | .Upper => [0x30, 0x31, 0x32, 0x33, 0x34, 0x35, 0x36, 0x37, 0x38, 0x39,
      0x41, 0x42, 0x43, 0x44, 0x45, 0x46]

/-- `lut[c as usize]` (in-bounds whenever `c < 16`, which `u8` nibbles
guarantee in the Rust code). -/
def lutAt (a : Alphabet) (i : Nat) : Nat := a.lut.getD i 0

/-- The two buffer bytes written for one input byte: its high nibble's
character at the even position and its low nibble's at the odd one
(`byte >> 4` and `byte & 0xf`; for `b < 256` these are `b / 16` and
`b % 16`). -/
def fmtByte (a : Alphabet) (b : Nat) : List Nat :=
  [lutAt a (b / 16), lutAt a (b % 16)]

/-- `buffer::fmt` from `src/buffer.rs`: the 66-byte formatting buffer,
`0x` at positions 0–1 and the byte at index `i` rendered at positions
`2 + 2i` and `3 + 2i`. -/
def bufferFmt (a : Alphabet) (bytes : List Nat) : List Nat :=
  0x30 :: 0x78 :: (bytes.map (fmtByte a)).flatten

/-- `FormattingBuffer::as_str`: the full buffer viewed as a string (the
buffer holds only ASCII, so characters are bytes). -/
def asStr (buffer : List Nat) : List Char :=
  buffer.map Char.ofNat

/-- `FormattingBuffer::as_bytes_str`: `&as_str()[2..]`, the view without
the `0x` prefix. -/
def asBytesStr (buffer : List Nat) : List Char :=
  (asStr buffer).drop 2

/-! ## `src/lib.rs`: the `Digest` value type -/

/-- `Digest(pub [u8; 32])`.  The `[u8; 32]` typing (length exactly 32,
entries `< 256`) appears as hypotheses on the theorems below. -/
structure Digest where
  bytes : List Nat
deriving DecidableEq

/-- `Display for Digest`: `f.pad(buffer::fmt(self, Alphabet::default()).as_str())`
— always the full, `0x`-prefixed, lowercase buffer. -/
def displayStr (d : Digest) : List Char :=
  asStr (bufferFmt Alphabet.default d.bytes)

/-- `Debug for Digest`: `Digest(…)` wrapped around the `Display` rendering. -/
def debugStr (d : Digest) : List Char :=
  "Digest(".toList ++ displayStr d ++ ")".toList

/-- `LowerHex for Digest`: the full buffer when the `#` (alternate) flag is
set, the prefix-stripped view otherwise. -/
def lowerHexStr (alternate : Bool) (d : Digest) : List Char :=
  let buffer := bufferFmt Alphabet.Lower d.bytes
  if alternate then asStr buffer else asBytesStr buffer

/-- `UpperHex for Digest`: the full buffer when the `#` (alternate) flag is
set, the prefix-stripped view otherwise. -/
def upperHexStr (alternate : Bool) (d : Digest) : List Char :=
  let buffer := bufferFmt Alphabet.Upper d.bytes
  if alternate then asStr buffer else asBytesStr buffer

/-- `core::array::TryFromSliceError`. -/
inductive TryFromSliceError
  | mk
deriving DecidableEq

/-- `TryFrom<&[u8]> for Digest`: `value.try_into()` on the inner
`[u8; 32]`, which succeeds (copying the bytes) exactly when the slice
length is 32.  `Digest::from_slice` is this followed by `.unwrap()`. -/
def digestTryFrom (slice : List Nat) : Except TryFromSliceError Digest :=
  if slice.length = 32 then .ok ⟨slice⟩ else .error .mk

/-- `FromStr for Digest`: `hex::decode(s).map(Self)`. -/
def fromStr (s : List Char) : Except ParseDigestError Digest :=
  (decode s).map Digest.mk

/-! ## `src/serde.rs` -/

/-- A serde deserialization error (`de::Error::custom` carries a message). -/
inductive DeError
  | custom (msg : List Char)
deriving DecidableEq

/-- `DigestVisitor::visit_str`: require and strip the `0x` prefix (its
absence is the distinct `missing `0x`-prefix` error), then `.parse()` the
remainder (i.e. `FromStr`, i.e. `hex::decode`), mapping a parse error
through `de::Error::custom` of its display message. -/
def visitStr (s : List Char) : Except DeError Digest :=
  match strip0x s with
  | none => .error (.custom "missing `0x`-prefix".toList)
  | some rest =>
    match fromStr rest with
    | .error e => .error (.custom e.message)
    | .ok d => .ok d

/-! ## `macros/src/lib.rs` -/

/-- `CompileError` from `macros/src/lib.rs`: a diagnostic message plus an
optional source span.  Spans are opaque to the validation logic; we model
them as `Nat` tags. -/
structure CompileError where
  message : List Char
  span : Option Nat
deriving DecidableEq

/-- `DigestLiteral::generate_digest`, after `Input::parse` has extracted the
string literal's quote-stripped `content` and its `span`: run the content
through the hex codec; a decode failure becomes
`invalid digest literal: <codec error message>` anchored at the literal's
span.  (`macros/src/hex.rs` is the crate's hex codec; per §4.5 of the spec
the digest literal is run through the HexCodec, modelled here by `decode`.) -/
def generateDigest (span : Nat) (content : List Char) :
    Except CompileError (List Nat) :=
  match decode content with
  | .error err =>
    .error ⟨"invalid digest literal: ".toList ++ err.message, some span⟩
  | .ok bytes => .ok bytes

/-! ## `src/keccak.rs`

Modelled from the spec: the underlying cryptographic hash is the external
`sha3::Keccak256` sponge, an out-of-scope collaborator per §1 of the spec,
described in §4.4 as a streaming hasher whose result depends only on the
concatenation of the updated chunks.  We model it as the standard Keccak-256
(Keccak-f[1600], rate 136 bytes, multi-rate `0x01` padding) applied to the
accumulated input bytes. -/

/-- 64-bit rotate left by `n` (for `0 ≤ n < 64` and `x < 2^64`). -/
def rotl64 (n x : Nat) : Nat :=
  ((x <<< n) ||| (x >>> (64 - n))) % 2 ^ 64

/-- Lane `(x, y)` of a 25-lane Keccak state, at flat index `x + 5y`. -/
def lane (s : List Nat) (x y : Nat) : Nat := s.getD (x + 5 * y) 0

/-- Keccak θ step. -/
def theta (s : List Nat) : List Nat :=
  let c := fun x =>
    lane s x 0 ^^^ lane s x 1 ^^^ lane s x 2 ^^^ lane s x 3 ^^^ lane s x 4
  let d := fun x => c ((x + 4) % 5) ^^^ rotl64 1 (c ((x + 1) % 5))
  (List.range 25).map fun j => s.getD j 0 ^^^ d (j % 5)

/-- Keccak ρ rotation offsets, indexed by `x + 5y`. -/
def rhoOffsets : List Nat :=
  [0, 1, 62, 28, 27] ++ [36, 44, 6, 55, 20] ++ [3, 10, 43, 25, 39] ++
    [41, 45, 15, 21, 8] ++ [18, 2, 61, 56, 14]

/-- Keccak ρ and π steps combined: the output lane at `(X, Y)` is the source
lane at `((X + 3Y) mod 5, X)` rotated by its ρ offset. -/
def rhoPi (s : List Nat) : List Nat :=
  (List.range 25).map fun j =>
    let src := (j % 5 + 3 * (j / 5)) % 5 + 5 * (j % 5)
    rotl64 (rhoOffsets.getD src 0) (s.getD src 0)

/-- Keccak χ step: `A[x,y] ^= ¬A[x+1,y] & A[x+2,y]`. -/
def chi (s : List Nat) : List Nat :=
  (List.range 25).map fun j =>
    let x := j % 5
    let y := j / 5
    s.getD j 0 ^^^
      ((2 ^ 64 - 1 - lane s ((x + 1) % 5) y) &&& lane s ((x + 2) % 5) y)

/-- The 24 Keccak-f[1600] round constants, as decimal 64-bit values. -/
def roundConstants : List Nat :=
  [1, 32898, 9223372036854808714,
    9223372039002292224, 32907, 2147483649,
    9223372039002292353, 9223372036854808585, 138,
    136, 2147516425, 2147483658,
    2147516555, 9223372036854775947, 9223372036854808713,
    9223372036854808579, 9223372036854808578, 9223372036854775936,
    32778, 9223372039002259466, 9223372039002292353,
    9223372036854808704, 2147483649, 9223372039002292232]

/-- One Keccak-f round: θ, ρ, π, χ, then ι with round constant `rc`. -/
def keccakRound (rc : Nat) (s : List Nat) : List Nat :=
  let t := chi (rhoPi (theta s))
  (t.getD 0 0 ^^^ rc) :: t.drop 1

/-- The Keccak-f[1600] permutation: 24 rounds. -/
def keccakF (s : List Nat) : List Nat :=
  roundConstants.foldl (fun s rc => keccakRound rc s) s

/-- Keccak multi-rate padding for rate 136: append `0x01`, zero-fill, and
set the top bit of the final block byte (`0x81` when a single padding byte
suffices). -/
def pad101 (msg : List Nat) : List Nat :=
  let padLen := 136 - msg.length % 136
  if padLen = 1 then msg ++ [0x81]
  else msg ++ 0x01 :: List.replicate (padLen - 2) 0 ++ [0x80]

/-- A little-endian 64-bit lane from up to 8 bytes. -/
def bytesToLane (bs : List Nat) : Nat :=
  bs.foldr (fun b acc => acc * 0x100 + b) 0

/-- Absorb one 136-byte block: XOR its 17 lanes into the state and permute. -/
def absorbBlock (s block : List Nat) : List Nat :=
  let lanes := (List.range 17).map fun i => bytesToLane ((block.drop (8 * i)).take 8)
  keccakF ((List.range 25).map fun j => s.getD j 0 ^^^ lanes.getD j 0)

/-- Absorb `n` consecutive 136-byte blocks of `msg` into state `s`. -/
def absorbLoop (s msg : List Nat) : Nat → List Nat
  | 0 => s
  | n + 1 => absorbLoop (absorbBlock s (msg.take 136)) (msg.drop 136) n

/-- Keccak-256 of a byte sequence: pad, absorb all blocks, and squeeze the
first 32 state bytes (lanes serialized little-endian). -/
def keccak256 (msg : List Nat) : List Nat :=
  let padded := pad101 msg
  let s := absorbLoop (List.replicate 25 0) padded (padded.length / 136)
  (List.range 32).map fun i => (s.getD (i / 8) 0 >>> (8 * (i % 8))) % 0x100

/-- The `Keccak` hasher of `src/keccak.rs`, wrapping `sha3::Keccak256`.
The wrapped sponge is modelled extensionally by the bytes absorbed so far. -/
structure Keccak where
  acc : List Nat
deriving DecidableEq

/-- `Keccak::new` (the `Default` state: nothing absorbed). -/
def Keccak.new : Keccak := ⟨[]⟩

/-- `Keccak::update`: absorb more data. -/
def Keccak.update (h : Keccak) (data : List Nat) : Keccak :=
  ⟨h.acc ++ data⟩

/-- `Keccak::finalize`: `Digest(self.0.finalize().into())`. -/
def Keccak.finalize (h : Keccak) : Digest :=
  ⟨keccak256 h.acc⟩

/-- `Digest::of` from `src/lib.rs`: one-shot hashing via a fresh hasher. -/
def Digest.of (data : List Nat) : Digest :=
  ((Keccak.new).update data).finalize

/-- `DigestLiteral::generate_keccak`: hash the literal's content (its UTF-8
bytes) with `Keccak256`; this path constructs no error. -/
def generateKeccak (content : List Char) : Except CompileError (List Nat) :=
  .ok (keccak256 (utf8Encode content))

/-! ## Definitions following the spec's wording, used to state the claims -/

/-- A character the spec's nibble rule accepts:
`'0'..'9'`, `'A'..'F'` or `'a'..'f'`. -/
def isHexDigit (c : Char) : Bool :=
  (nibble c.toNat).isSome

/-- The nibble value of a hex digit character
(`'0'..'9' → 0–9`, `'A'..'F' → 10–15`, `'a'..'f' → 10–15`). -/
def hexVal (c : Char) : Nat :=
  (nibble c.toNat).getD 0

/-- The spec's decoding of 64 hex characters: consecutive pairs combined as
`(high << 4) | low` into 32 bytes in order. -/
def pairBytes : List Char → List Nat
  | c1 :: c2 :: rest => (hexVal c1 * 16 + hexVal c2) :: pairBytes rest
  | _ => []

/-! ## Helper lemmas -/

/-- Induction consuming a list two elements at a time, matching the
recursion of `decodePairs` and `pairBytes`. -/
theorem twoStepInduction {α : Type} {p : List α → Prop} (h0 : p [])
    (h1 : ∀ a, p [a]) (h2 : ∀ a b t, p t → p (a :: b :: t)) :
    ∀ l, p l
  | [] => h0
  | [a] => h1 a
  | a :: b :: t => h2 a b t (twoStepInduction h0 h1 h2 t)

theorem nibble_eq_none_of_gt {b : Nat} (h : 0x66 < b) : nibble b = none := by
  unfold nibble
  split_ifs <;> first | rfl | omega

theorem isHexDigit_toNat_le {c : Char} (h : isHexDigit c) : c.toNat ≤ 0x66 := by
  by_contra hgt
  rw [isHexDigit, nibble_eq_none_of_gt (by omega : 0x66 < c.toNat)] at h
  simp at h

/-- Hex digit characters are one-byte ASCII. -/
theorem utf8EncodeChar_hex {c : Char} (h : isHexDigit c) :
    utf8EncodeChar c = [c.toNat] := by
  have := isHexDigit_toNat_le h
  unfold utf8EncodeChar
  simp only [if_pos (by omega : c.toNat < 0x80)]

theorem utf8Size_hex {c : Char} (h : isHexDigit c) : utf8Size c = 1 := by
  have := isHexDigit_toNat_le h
  unfold utf8Size
  simp only [if_pos (by omega : c.toNat < 0x80)]

/-- On all-hex-digit strings, UTF-8 encoding is just `Char.toNat`. -/
theorem utf8Encode_hex {s : List Char} (h : ∀ c ∈ s, isHexDigit c) :
    utf8Encode s = s.map Char.toNat := by
  induction s with
  | nil => rfl
  | cons c t ih =>
    have hc : isHexDigit c := h c (List.mem_cons_self c t)
    have ht : ∀ x ∈ t, isHexDigit x := fun x hx => h x (List.mem_cons_of_mem c hx)
    simp only [utf8Encode, List.map_cons, List.flatten_cons] at ih ⊢
    rw [utf8EncodeChar_hex hc, ih ht, List.singleton_append]

theorem nibble_eq_some_hexVal {c : Char} (h : isHexDigit c) :
    nibble c.toNat = some (hexVal c) := by
  cases hn : nibble c.toNat with
  | none => rw [isHexDigit, hn] at h; simp at h
  | some v => rw [hexVal, hn]; rfl

/-- On an all-hex-digit chunk list, the decoding loop succeeds with the
pairwise-combined bytes. -/
theorem decodePairs_ok (rem : List Char) (off : Nat) :
    ∀ t : List Char, (∀ c ∈ t, isHexDigit c) → ∀ i,
      decodePairs rem off i (t.map Char.toNat) = .ok (pairBytes t) := by
  intro t
  induction t using twoStepInduction with
  | h0 => intro _ _; rfl
  | h1 a =>
    intro h i
    simp only [List.map_cons, List.map_nil, decodePairs,
      nibble_eq_some_hexVal (h a (by simp))]
    rfl
  | h2 a b t ih =>
    intro h i
    simp only [List.map_cons, decodePairs,
      nibble_eq_some_hexVal (h a (by simp)), nibble_eq_some_hexVal (h b (by simp)),
      ih (fun c hc => h c (by simp [hc])) (i + 2), Except.map, pairBytes]

/-- The decoding loop reports the first byte `nibble` rejects: if every byte
of `valid` is accepted and `b0` is rejected, the loop fails with the
character at byte offset `i + valid.length` and that offset plus the prefix
offset, regardless of anything after `b0`. -/
theorem decodePairs_error (rem : List Char) (off : Nat) :
    ∀ (valid : List Nat), (∀ b ∈ valid, (nibble b).isSome) →
      ∀ (b0 : Nat), nibble b0 = none → ∀ (rest : List Nat) (i : Nat),
      decodePairs rem off i (valid ++ b0 :: rest) =
        .error (.InvalidHexCharacter (firstCharAt rem (i + valid.length))
          (i + valid.length + off)) := by
  intro valid
  induction valid using twoStepInduction with
  | h0 =>
    intro _ b0 hb0 rest i
    cases rest with
    | nil => simp only [List.nil_append, decodePairs, hb0, Nat.add_zero, List.length_nil]
    | cons r rs => simp only [List.nil_append, decodePairs, hb0, Nat.add_zero, List.length_nil]
  | h1 v =>
    intro hv b0 hb0 rest i
    obtain ⟨hi, hhi⟩ := Option.isSome_iff_exists.mp (hv v (by simp))
    simp only [List.cons_append, List.nil_append, decodePairs, hhi, hb0,
      List.length_cons, List.length_nil]
  | h2 v1 v2 valid ih =>
    intro hv b0 hb0 rest i
    obtain ⟨n1, hn1⟩ := Option.isSome_iff_exists.mp (hv v1 (by simp))
    obtain ⟨n2, hn2⟩ := Option.isSome_iff_exists.mp (hv v2 (by simp))
    simp only [List.cons_append, decodePairs, hn1, hn2, List.length_cons]
    rw [show valid.append (b0 :: rest) = valid ++ b0 :: rest from rfl,
      ih (fun b hb => hv b (by simp [hb])) b0 hb0 rest (i + 2),
      show i + 2 + valid.length = i + (valid.length + 1 + 1) from by omega]
    rfl

/-- The decoding loop never reports `InvalidLength`. -/
theorem decodePairs_ne_invalidLength (rem : List Char) (off : Nat) :
    ∀ (bs : List Nat) (i : Nat),
      decodePairs rem off i bs ≠ .error .InvalidLength := by
  intro bs
  induction bs using twoStepInduction with
  | h0 => intro i h; exact Except.noConfusion h
  | h1 b =>
    intro i h
    rw [decodePairs] at h
    cases hb : nibble b <;> rw [hb] at h <;> simp at h
  | h2 b0 b1 bs ih =>
    intro i h
    rw [decodePairs] at h
    cases hb0 : nibble b0 <;> rw [hb0] at h
    · simp at h
    · cases hb1 : nibble b1 <;> rw [hb1] at h
      · simp at h
      · cases hrec : decodePairs rem off (i + 2) bs <;>
          rw [hrec] at h <;> simp [Except.map] at h
        exact ih (i + 2) (by rw [hrec, h])

/-- The character at the byte offset just past an all-hex-digit prefix is the
character following that prefix. -/
theorem firstCharAt_hexPrefix :
    ∀ (pre : List Char), (∀ d ∈ pre, isHexDigit d) → ∀ (c : Char) (suf : List Char),
      firstCharAt (pre ++ c :: suf) pre.length = c := by
  intro pre
  induction pre with
  | nil => intro _ c suf; rfl
  | cons d pre ih =>
    intro h c suf
    rw [List.cons_append, List.length_cons, firstCharAt]
    rw [utf8Size_hex (h d (by simp))]
    simp only [if_neg (by omega : ¬pre.length + 1 = 0),
      if_neg (by omega : ¬pre.length + 1 < 1), Nat.add_sub_cancel]
    exact ih (fun x hx => h x (by simp [hx])) c suf

/-- A rejected character's first UTF-8 byte is rejected by `nibble`:
either the character is ASCII and itself non-hex, or it is multi-byte and its
lead byte is at least `0xC2`. -/
theorem utf8EncodeChar_head_bad {c : Char} (h : ¬isHexDigit c) :
    ∃ b0 tail, utf8EncodeChar c = b0 :: tail ∧ nibble b0 = none := by
  unfold utf8EncodeChar
  by_cases h1 : c.toNat < 0x80
  · refine ⟨c.toNat, [], by simp [h1], ?_⟩
    rw [isHexDigit] at h
    exact Option.not_isSome_iff_eq_none.mp (by simpa using h)
  · by_cases h2 : c.toNat < 0x800
    · exact ⟨0xC0 + c.toNat / 0x40, [0x80 + c.toNat % 0x40],
        by simp [h1, h2], nibble_eq_none_of_gt (by omega)⟩
    · by_cases h3 : c.toNat < 0x10000
      · exact ⟨0xE0 + c.toNat / 0x1000,
          [0x80 + c.toNat / 0x40 % 0x40, 0x80 + c.toNat % 0x40],
          by simp [h1, h2, h3], nibble_eq_none_of_gt (by omega)⟩
      · exact ⟨0xF0 + c.toNat / 0x40000,
          [0x80 + c.toNat / 0x1000 % 0x40, 0x80 + c.toNat / 0x40 % 0x40,
            0x80 + c.toNat % 0x40],
          by simp [h1, h2, h3], nibble_eq_none_of_gt (by omega)⟩

theorem utf8Encode_append (a b : List Char) :
    utf8Encode (a ++ b) = utf8Encode a ++ utf8Encode b := by
  simp [utf8Encode]

theorem utf8Encode_cons (c : Char) (t : List Char) :
    utf8Encode (c :: t) = utf8EncodeChar c ++ utf8Encode t := rfl

/-- `decode` on a string whose remainder is 64 bytes of hex digits: the
nibble pairs combined in order. -/
theorem decode_ok {s rem : List Char} {off : Nat} (hstrip : stripped s = (rem, off))
    (hlen : (utf8Encode rem).length = 64) (hhex : ∀ c ∈ rem, isHexDigit c) :
    decode s = .ok (pairBytes rem) := by
  unfold decode
  simp only [hstrip]
  rw [if_neg (show ¬(utf8Encode rem).length ≠ 64 from fun h => h hlen)]
  rw [utf8Encode_hex hhex]
  exact decodePairs_ok rem off rem hhex 0

/-- `decode` on a string whose remainder is 64 bytes with a first
non-hex-digit character `c` after an all-hex prefix `pre`: the reported
error carries `c` and its character position plus the prefix offset. -/
theorem decode_firstBad {s rem : List Char} {off : Nat}
    (hstrip : stripped s = (rem, off)) (hlen : (utf8Encode rem).length = 64)
    {pre : List Char} {c : Char} {suf : List Char} (hsplit : rem = pre ++ c :: suf)
    (hpre : ∀ d ∈ pre, isHexDigit d) (hc : ¬isHexDigit c) :
    decode s = .error (.InvalidHexCharacter c (pre.length + off)) := by
  obtain ⟨b0, tail, henc, hb0⟩ := utf8EncodeChar_head_bad hc
  have henc2 : utf8Encode rem = (pre.map Char.toNat) ++ b0 :: (tail ++ utf8Encode suf) := by
    rw [hsplit, utf8Encode_append, utf8Encode_cons, henc, utf8Encode_hex hpre]
    simp
  have hvalid : ∀ b ∈ pre.map Char.toNat, (nibble b).isSome := by
    intro b hb
    obtain ⟨d, hd, rfl⟩ := List.mem_map.mp hb
    rw [nibble_eq_some_hexVal (hpre d hd)]
    rfl
  unfold decode
  simp only [hstrip]
  rw [if_neg (show ¬(utf8Encode rem).length ≠ 64 from fun h => h hlen), henc2,
    decodePairs_error rem off (pre.map Char.toNat) hvalid b0 hb0 _ 0]
  rw [List.length_map, Nat.zero_add, hsplit, firstCharAt_hexPrefix pre hpre c suf]

/-- `decode` reports `InvalidLength` exactly when the remainder after
prefix stripping is not 64 UTF-8 bytes long. -/
theorem decode_invalidLength_iff {s rem : List Char} {off : Nat}
    (hstrip : stripped s = (rem, off)) :
    decode s = .error .InvalidLength ↔ (utf8Encode rem).length ≠ 64 := by
  unfold decode
  simp only [hstrip]
  constructor
  · intro h
    by_contra hne
    rw [if_neg (show ¬(utf8Encode rem).length ≠ 64 from fun hk => hk (by omega))] at h
    exact decodePairs_ne_invalidLength rem off _ 0 h
  · intro h
    rw [if_pos h]

/-- `Char.ofNat` is the left inverse of `Char.toNat` below the surrogate
range (in particular on all ASCII byte values). -/
theorem toNat_ofNat_of_lt {n : Nat} (h : n < 0xD800) : (Char.ofNat n).toNat = n := by
  have hv : n.isValidChar := Or.inl h
  rw [Char.ofNat, dif_pos hv]
  rfl

theorem nibble_lutAt (a : Alphabet) : ∀ n, n < 16 →
    nibble (lutAt a n) = some n ∧ lutAt a n < 0x80 := by
  cases a <;> decide

theorem flatten_fmtByte_length (a : Alphabet) (l : List Nat) :
    ((l.map (fmtByte a)).flatten).length = 2 * l.length := by
  induction l with
  | nil => rfl
  | cons b t ih =>
    simp only [List.map_cons, List.flatten_cons, List.length_append, ih,
      List.length_cons, fmtByte, List.length_cons, List.length_nil]
    omega

/-- The decoding loop inverts the formatting of any byte list. -/
theorem decodePairs_fmt (a : Alphabet) :
    ∀ l : List Nat, (∀ b ∈ l, b < 256) → ∀ (rem : List Char) (off i : Nat),
      decodePairs rem off i ((l.map (fmtByte a)).flatten) = .ok l := by
  intro l
  induction l with
  | nil => intro _ _ _ _; rfl
  | cons b t ih =>
    intro h rem off i
    have hdiv : b / 16 < 16 := by
      have := h b (by simp)
      omega
    have hmod : b % 16 < 16 := Nat.mod_lt b (by omega)
    simp only [List.map_cons, List.flatten_cons, fmtByte, List.cons_append,
      List.nil_append, decodePairs, (nibble_lutAt a _ hdiv).1,
      (nibble_lutAt a _ hmod).1, List.append_eq]
    rw [ih (fun x hx => h x (by simp [hx])) rem off (i + 2),
      show b / 16 * 16 + b % 16 = b from by omega]
    rfl

/-- Every byte of the digit region of the formatted buffer is drawn from the
alphabet's 16-entry table. -/
theorem flatten_fmtByte_mem (a : Alphabet) (l : List Nat)
    (h : ∀ b ∈ l, b < 256) :
    ∀ x ∈ (l.map (fmtByte a)).flatten, x ∈ a.lut := by
  intro x hx
  rw [List.mem_flatten] at hx
  obtain ⟨pair, hpair, hxpair⟩ := hx
  rw [List.mem_map] at hpair
  obtain ⟨b, hb, rfl⟩ := hpair
  have hdiv : b / 16 < 16 := by
    have := h b hb
    omega
  have hmod : b % 16 < 16 := Nat.mod_lt b (by omega)
  have hmem : ∀ n, n < 16 → lutAt a n ∈ a.lut := by cases a <;> decide
  simp only [fmtByte, List.mem_cons, List.not_mem_nil, or_false] at hxpair
  rcases hxpair with rfl | rfl
  · exact hmem _ hdiv
  · exact hmem _ hmod

/-- The spec's three accepted character ranges, extracted from `nibble`. -/
theorem isHexDigit_iff {c : Char} :
    isHexDigit c ↔ (0x30 ≤ c.toNat ∧ c.toNat ≤ 0x39) ∨
      (0x41 ≤ c.toNat ∧ c.toNat ≤ 0x46) ∨ (0x61 ≤ c.toNat ∧ c.toNat ≤ 0x66) := by
  rw [isHexDigit]
  unfold nibble
  split_ifs with h1 h2 h3 <;> simp <;> omega

theorem hexVal_digit {c : Char} (h : 0x30 ≤ c.toNat ∧ c.toNat ≤ 0x39) :
    hexVal c = c.toNat - 0x30 := by
  rw [hexVal]
  unfold nibble
  rw [if_pos h]
  rfl

theorem hexVal_upper {c : Char} (h : 0x41 ≤ c.toNat ∧ c.toNat ≤ 0x46) :
    hexVal c = c.toNat - 0x41 + 0xa := by
  rw [hexVal]
  unfold nibble
  rw [if_neg (by omega), if_pos h]
  rfl

theorem hexVal_lower {c : Char} (h : 0x61 ≤ c.toNat ∧ c.toNat ≤ 0x66) :
    hexVal c = c.toNat - 0x61 + 0xa := by
  rw [hexVal]
  unfold nibble
  rw [if_neg (by omega), if_neg (by omega), if_pos h]
  rfl

theorem hexVal_lt {c : Char} (h : isHexDigit c) : hexVal c < 16 := by
  rcases isHexDigit_iff.mp h with h1 | h1 | h1
  · rw [hexVal_digit h1]; omega
  · rw [hexVal_upper h1]; omega
  · rw [hexVal_lower h1]; omega

theorem toLower_of_not_upper {c : Char} (h : ¬(65 ≤ c.toNat ∧ c.toNat ≤ 90)) :
    Char.toLower c = c := by
  rw [Char.toLower, if_neg (by omega)]

theorem toLower_of_upper {c : Char} (h : 65 ≤ c.toNat ∧ c.toNat ≤ 90) :
    Char.toLower c = Char.ofNat (c.toNat + 32) := by
  rw [Char.toLower, if_pos (by omega)]

theorem toUpper_of_not_lower {c : Char} (h : ¬(97 ≤ c.toNat ∧ c.toNat ≤ 122)) :
    Char.toUpper c = c := by
  rw [Char.toUpper, if_neg (by omega)]

theorem toUpper_of_lower {c : Char} (h : 97 ≤ c.toNat ∧ c.toNat ≤ 122) :
    Char.toUpper c = Char.ofNat (c.toNat - 32) := by
  rw [Char.toUpper, if_pos (by omega)]

theorem lutAt_Lower_eq (i : Nat) (h : i < 16) :
    lutAt Alphabet.Lower i = if i < 10 then 0x30 + i else 0x57 + i := by
  interval_cases i <;> rfl

/-- The lowercase table entry for a hex digit's value is exactly the
ASCII-lowercased digit character. -/
theorem lutAt_Lower_toLower {c : Char} (h : isHexDigit c) :
    lutAt Alphabet.Lower (hexVal c) = (Char.toLower c).toNat := by
  rcases isHexDigit_iff.mp h with h1 | h1 | h1
  · rw [hexVal_digit h1, toLower_of_not_upper (by omega),
      lutAt_Lower_eq _ (by omega), if_pos (by omega)]
    omega
  · rw [hexVal_upper h1, toLower_of_upper (by omega),
      lutAt_Lower_eq _ (by omega), if_neg (by omega),
      toNat_ofNat_of_lt (by omega)]
    omega
  · rw [hexVal_lower h1, toLower_of_not_upper (by omega),
      lutAt_Lower_eq _ (by omega), if_neg (by omega)]
    omega

/-- ASCII lowercasing preserves hex-digithood and the nibble value. -/
theorem hexVal_toLower {c : Char} (h : isHexDigit c) :
    isHexDigit (Char.toLower c) ∧ hexVal (Char.toLower c) = hexVal c := by
  rcases isHexDigit_iff.mp h with h1 | h1 | h1
  · rw [toLower_of_not_upper (by omega)]
    exact ⟨h, rfl⟩
  · rw [toLower_of_upper (by omega)]
    have ht : (Char.ofNat (c.toNat + 32)).toNat = c.toNat + 32 :=
      toNat_ofNat_of_lt (by omega)
    constructor
    · rw [isHexDigit_iff, ht]
      omega
    · rw [hexVal_lower (by omega), hexVal_upper h1, ht]
      omega
  · rw [toLower_of_not_upper (by omega)]
    exact ⟨h, rfl⟩

/-- ASCII uppercasing preserves hex-digithood and the nibble value. -/
theorem hexVal_toUpper {c : Char} (h : isHexDigit c) :
    isHexDigit (Char.toUpper c) ∧ hexVal (Char.toUpper c) = hexVal c := by
  rcases isHexDigit_iff.mp h with h1 | h1 | h1
  · rw [toUpper_of_not_lower (by omega)]
    exact ⟨h, rfl⟩
  · rw [toUpper_of_not_lower (by omega)]
    exact ⟨h, rfl⟩
  · rw [toUpper_of_lower (by omega)]
    have ht : (Char.ofNat (c.toNat - 32)).toNat = c.toNat - 32 :=
      toNat_ofNat_of_lt (by omega)
    constructor
    · rw [isHexDigit_iff, ht]
      omega
    · rw [hexVal_upper (by omega), hexVal_lower h1, ht]
      omega

theorem pairBytes_length : ∀ t : List Char, (pairBytes t).length = t.length / 2 := by
  intro t
  induction t using twoStepInduction with
  | h0 => rfl
  | h1 a => simp [pairBytes]
  | h2 a b t ih =>
    simp only [pairBytes, List.length_cons, ih]
    omega

theorem pairBytes_lt : ∀ t : List Char, (∀ c ∈ t, isHexDigit c) →
    ∀ b ∈ pairBytes t, b < 256 := by
  intro t
  induction t using twoStepInduction with
  | h0 => intro _ b hb; cases hb
  | h1 a => intro _ b hb; cases hb
  | h2 c1 c2 t ih =>
    intro h b hb
    rcases List.mem_cons.mp hb with rfl | hb
    · have := hexVal_lt (h c1 (by simp))
      have := hexVal_lt (h c2 (by simp))
      omega
    · exact ih (fun x hx => h x (by simp [hx])) b hb

theorem pairBytes_map_toLower : ∀ t : List Char, (∀ c ∈ t, isHexDigit c) →
    pairBytes (t.map Char.toLower) = pairBytes t := by
  intro t
  induction t using twoStepInduction with
  | h0 => intro _; rfl
  | h1 a => intro _; rfl
  | h2 c1 c2 t ih =>
    intro h
    simp only [List.map_cons, pairBytes,
      (hexVal_toLower (h c1 (by simp))).2, (hexVal_toLower (h c2 (by simp))).2,
      ih (fun x hx => h x (by simp [hx]))]

theorem pairBytes_map_toUpper : ∀ t : List Char, (∀ c ∈ t, isHexDigit c) →
    pairBytes (t.map Char.toUpper) = pairBytes t := by
  intro t
  induction t using twoStepInduction with
  | h0 => intro _; rfl
  | h1 a => intro _; rfl
  | h2 c1 c2 t ih =>
    intro h
    simp only [List.map_cons, pairBytes,
      (hexVal_toUpper (h c1 (by simp))).2, (hexVal_toUpper (h c2 (by simp))).2,
      ih (fun x hx => h x (by simp [hx]))]

/-- Formatting the decoded bytes of an even-length hex string with the
lowercase alphabet reproduces its ASCII-lowercased digit bytes. -/
theorem fmt_pairBytes : ∀ t : List Char, (∀ c ∈ t, isHexDigit c) →
    t.length % 2 = 0 →
    ((pairBytes t).map (fmtByte Alphabet.Lower)).flatten =
      t.map fun c => (Char.toLower c).toNat := by
  intro t
  induction t using twoStepInduction with
  | h0 => intro _ _; rfl
  | h1 a => intro _ hlen; simp at hlen
  | h2 c1 c2 t ih =>
    intro h hlen
    have h1 : isHexDigit c1 := h c1 (by simp)
    have h2 : isHexDigit c2 := h c2 (by simp)
    have hv2 : hexVal c2 < 16 := hexVal_lt h2
    simp only [pairBytes, List.map_cons, List.flatten_cons, fmtByte]
    rw [show (hexVal c1 * 16 + hexVal c2) / 16 = hexVal c1 from by omega,
      show (hexVal c1 * 16 + hexVal c2) % 16 = hexVal c2 from by omega,
      lutAt_Lower_toLower h1, lutAt_Lower_toLower h2,
      ih (fun x hx => h x (by simp [hx])) (by simp at hlen ⊢; omega)]
    rfl

theorem utf8Encode_hex_length {t : List Char} (h : ∀ c ∈ t, isHexDigit c) :
    (utf8Encode t).length = t.length := by
  rw [utf8Encode_hex h, List.length_map]

theorem stripped_0x (r : List Char) : stripped ('0' :: 'x' :: r) = (r, 2) := rfl

theorem strip0x_none_iff (s : List Char) :
    strip0x s = none ↔ ∀ r, s ≠ '0' :: 'x' :: r := by
  cases s with
  | nil => simp [strip0x]
  | cons c0 t =>
    cases t with
    | nil => simp [strip0x]
    | cons c1 r =>
      rw [strip0x]
      by_cases h : c0 = '0' ∧ c1 = 'x'
      · obtain ⟨rfl, rfl⟩ := h
        rw [if_pos ⟨rfl, rfl⟩]
        constructor
        · intro h
          exact Option.noConfusion h
        · intro h
          exact absurd rfl (h r)
      · rw [if_neg h]
        constructor
        · intro _ r' he
          injection he with h0 h1
          injection h1 with h1 _
          exact h ⟨h0, h1⟩
        · intro _
          rfl

/-! ## Claim theorems -/

/-- **C2** (amended: the length check counts the remainder's UTF-8 *bytes*,
not its characters; the two coincide for ASCII input).  `decode` first strips
a leading `0x` — exactly those two characters, case-sensitively, so `0X` is
not stripped — recording offset 2, else offset 0, and then fails with
`InvalidLength` if and only if the remaining text's UTF-8 byte count is not
exactly 64. -/
theorem decode_prefix_and_length_spec (s rem : List Char) (off : Nat)
    (hstrip : stripped s = (rem, off)) :
    (∀ r, s = '0' :: 'x' :: r → rem = r ∧ off = 2) ∧
    ((∀ r, s ≠ '0' :: 'x' :: r) → rem = s ∧ off = 0) ∧
    (decode s = .error .InvalidLength ↔ (utf8Encode rem).length ≠ 64) := by
  refine ⟨?_, ?_, decode_invalidLength_iff hstrip⟩
  · rintro r rfl
    rw [stripped_0x r] at hstrip
    cases hstrip
    exact ⟨rfl, rfl⟩
  · intro h
    have hn : strip0x s = none := (strip0x_none_iff s).mpr h
    simp only [stripped, hn] at hstrip
    cases hstrip
    exact ⟨rfl, rfl⟩

/-- Witness for **C2**: concrete instances — `0x` is stripped with offset 2,
`0X` is not stripped, and a 63-byte remainder fails with `InvalidLength`. -/
theorem decode_prefix_and_length_spec_witness :
    ((stripped ('0' :: 'x' :: List.replicate 63 'a')).1 = List.replicate 63 'a' ∧
      (stripped ('0' :: 'x' :: List.replicate 63 'a')).2 = 2) ∧
    ((stripped ('0' :: 'X' :: List.replicate 64 'a')).1 =
        '0' :: 'X' :: List.replicate 64 'a' ∧
      (stripped ('0' :: 'X' :: List.replicate 64 'a')).2 = 0) ∧
    decode ('0' :: 'x' :: List.replicate 63 'a') = .error .InvalidLength := by
  have h1 := decode_prefix_and_length_spec ('0' :: 'x' :: List.replicate 63 'a')
    (List.replicate 63 'a') 2 (by decide)
  have h2 := decode_prefix_and_length_spec ('0' :: 'X' :: List.replicate 64 'a')
    ('0' :: 'X' :: List.replicate 64 'a') 0 (by decide)
  refine ⟨?_, ?_, ?_⟩
  · have := h1.1 (List.replicate 63 'a') rfl
    exact ⟨by decide, by decide⟩
  · have := h2.2.1 (fun r he => by
      injection he with h0 h1
      injection h1 with h1 _
      exact absurd h1 (by decide))
    exact ⟨by decide, by decide⟩
  · exact h1.2.2.mpr (by decide)

/-- Counterexample for **C2** as stated: the input `0x` + 63 `a`s + `é` has a
remainder of exactly 64 *characters* (so the claim's iff says `decode` must
not fail with `InvalidLength`), but its remainder is 65 UTF-8 bytes and the
code fails with `InvalidLength`. -/
theorem decode_prefix_and_length_spec_counterexample :
    (stripped ('0' :: 'x' :: (List.replicate 63 'a' ++ ['é']))).1.length = 64 ∧
    decode ('0' :: 'x' :: (List.replicate 63 'a' ++ ['é'])) =
      .error .InvalidLength := by
  constructor
  · decide
  · decide

/-- **C1** (amended: "remainder is exactly 64 characters" must read
"remainder encodes to exactly 64 UTF-8 bytes"; for all-ASCII remainders the
two coincide).  For every input string whose remainder after optional `0x`
stripping is 64 UTF-8 bytes: if every character is a hex digit, `decode`
maps each character to its nibble and combines consecutive pairs as
`(high << 4) | low` into 32 bytes in order, and decoding the same digits
through upper- or lowercasing yields identical bytes; if some character is
invalid, `decode` fails with `InvalidHexCharacter` carrying the first
invalid character (any later invalid ones notwithstanding) and the index
equal to its character position within the remainder plus the prefix
offset. -/
theorem decode_nibble_spec (s rem : List Char) (off : Nat)
    (hstrip : stripped s = (rem, off))
    (hlen : (utf8Encode rem).length = 64) :
    ((∀ c ∈ rem, isHexDigit c) →
      decode s = .ok (pairBytes rem) ∧ (pairBytes rem).length = 32 ∧
      decode ('0' :: 'x' :: rem.map Char.toLower) = .ok (pairBytes rem) ∧
      decode ('0' :: 'x' :: rem.map Char.toUpper) = .ok (pairBytes rem)) ∧
    (∀ pre c suf, rem = pre ++ c :: suf → (∀ d ∈ pre, isHexDigit d) →
      ¬isHexDigit c →
      decode s = .error (.InvalidHexCharacter c (pre.length + off))) := by
  constructor
  · intro hhex
    have hcount : rem.length = 64 := by
      rw [utf8Encode_hex_length hhex] at hlen
      exact hlen
    have hlower : ∀ c ∈ rem.map Char.toLower, isHexDigit c := by
      intro c hc
      obtain ⟨d, hd, rfl⟩ := List.mem_map.mp hc
      exact (hexVal_toLower (hhex d hd)).1
    have hupper : ∀ c ∈ rem.map Char.toUpper, isHexDigit c := by
      intro c hc
      obtain ⟨d, hd, rfl⟩ := List.mem_map.mp hc
      exact (hexVal_toUpper (hhex d hd)).1
    refine ⟨decode_ok hstrip hlen hhex, ?_, ?_, ?_⟩
    · rw [pairBytes_length, hcount]
    · rw [decode_ok (stripped_0x _) (by rw [utf8Encode_hex_length hlower,
        List.length_map, hcount]) hlower, pairBytes_map_toLower rem hhex]
    · rw [decode_ok (stripped_0x _) (by rw [utf8Encode_hex_length hupper,
        List.length_map, hcount]) hupper, pairBytes_map_toUpper rem hhex]
  · intro pre c suf hsplit hpre hc
    exact decode_firstBad hstrip hlen hsplit hpre hc

/-- Witness for **C1**: mixed-case digits decode to the pairwise nibble
bytes (identically after lower- or uppercasing), and a `z` after one valid
digit is reported at index `1 + 2`. -/
theorem decode_nibble_spec_witness :
    decode ('0' :: 'x' :: (List.replicate 32 'A' ++ List.replicate 32 'b')) =
      .ok (pairBytes (List.replicate 32 'A' ++ List.replicate 32 'b')) ∧
    decode ('0' :: 'x' :: ('a' :: 'z' :: List.replicate 62 'a')) =
      .error (.InvalidHexCharacter 'z' (1 + 2)) := by
  constructor
  · exact (decode_nibble_spec _ (List.replicate 32 'A' ++ List.replicate 32 'b') 2
      (by decide) (by decide)).1 (by decide) |>.1
  · exact (decode_nibble_spec _ ('a' :: 'z' :: List.replicate 62 'a') 2
      (by decide) (by decide)).2 ['a'] 'z' (List.replicate 62 'a') rfl
      (by decide) (by decide)

/-- Counterexample for **C1** as stated: 63 `a`s followed by `é` is an input
whose remainder is exactly 64 characters with first (and only) invalid
character `é` at character position 63 and no prefix, so the claim requires
`InvalidHexCharacter { c := 'é', index := 63 }`; the code returns
`InvalidLength` because the remainder is 65 UTF-8 bytes. -/
theorem decode_nibble_spec_counterexample :
    (List.replicate 63 'a' ++ ['é']).length = 64 ∧
    stripped (List.replicate 63 'a' ++ ['é']) =
      (List.replicate 63 'a' ++ ['é'], 0) ∧
    (∀ d ∈ List.replicate 63 'a', isHexDigit d) ∧ ¬isHexDigit 'é' ∧
    decode (List.replicate 63 'a' ++ ['é']) = .error .InvalidLength ∧
    decode (List.replicate 63 'a' ++ ['é']) ≠
      .error (.InvalidHexCharacter 'é' 63) := by
  refine ⟨by decide, by decide, by decide, by decide, by decide, by decide⟩

/-- **C6**: constructing a `Digest` from a byte slice copies the bytes
exactly when the length is 32, and fails with the length-mismatch
`TryFromSliceError` (never truncating or padding) otherwise. -/
theorem digestTryFrom_spec (slice : List Nat) :
    (slice.length = 32 → digestTryFrom slice = .ok ⟨slice⟩) ∧
    (slice.length ≠ 32 → digestTryFrom slice = .error .mk) := by
  constructor
  · intro h
    rw [digestTryFrom, if_pos h]
  · intro h
    rw [digestTryFrom, if_neg h]

/-- Witness for **C6**: a 32-byte slice is copied exactly; a 31-byte and a
33-byte slice are rejected. -/
theorem digestTryFrom_spec_witness :
    digestTryFrom (List.replicate 32 7) = .ok ⟨List.replicate 32 7⟩ ∧
    digestTryFrom (List.replicate 31 7) = .error .mk ∧
    digestTryFrom (List.replicate 33 7) = .error .mk :=
  ⟨(digestTryFrom_spec (List.replicate 32 7)).1 (by decide),
    (digestTryFrom_spec (List.replicate 31 7)).2 (by decide),
    (digestTryFrom_spec (List.replicate 33 7)).2 (by decide)⟩

theorem lut_lt (a : Alphabet) : ∀ v ∈ a.lut, v < 0x80 := by
  cases a <;> decide

theorem utf8Encode_map_ofNat {bs : List Nat} (h : ∀ x ∈ bs, x < 0x80) :
    utf8Encode (bs.map Char.ofNat) = bs := by
  induction bs with
  | nil => rfl
  | cons b t ih =>
    have hlt : b < 0x80 := h b (by simp)
    have hb : (Char.ofNat b).toNat = b := toNat_ofNat_of_lt (by omega)
    rw [List.map_cons, utf8Encode_cons]
    unfold utf8EncodeChar
    rw [hb, if_pos hlt, ih fun x hx => h x (by simp [hx]), List.singleton_append]

/-- Decoding inverts formatting, for either alphabet. -/
theorem decode_bufferFmt (a : Alphabet) (l : List Nat) (hlen : l.length = 32)
    (hbytes : ∀ b ∈ l, b < 256) :
    decode (asStr (bufferFmt a l)) = .ok l := by
  have hdig : ∀ x ∈ (l.map (fmtByte a)).flatten, x < 0x80 := fun x hx =>
    lut_lt a x (flatten_fmtByte_mem a l hbytes x hx)
  have hstr : asStr (bufferFmt a l) =
      '0' :: 'x' :: ((l.map (fmtByte a)).flatten.map Char.ofNat) := by
    rw [asStr, bufferFmt, List.map_cons, List.map_cons,
      show Char.ofNat 0x30 = '0' from by decide,
      show Char.ofNat 0x78 = 'x' from by decide]
  have henc : utf8Encode ((l.map (fmtByte a)).flatten.map Char.ofNat) =
      (l.map (fmtByte a)).flatten := utf8Encode_map_ofNat hdig
  rw [hstr]
  unfold decode
  rw [stripped_0x]
  simp only [henc]
  rw [if_neg (show ¬((l.map (fmtByte a)).flatten.length ≠ 64) from by
    rw [flatten_fmtByte_length, hlen]; omega)]
  exact decodePairs_fmt a l hbytes _ 2 0

/-- Formatting the decode of a valid canonical string lowercases it and
restores the `0x` prefix. -/
theorem bufferFmt_decode {s rem : List Char} {off : Nat}
    (hstrip : stripped s = (rem, off)) (hcount : rem.length = 64)
    (hhex : ∀ c ∈ rem, isHexDigit c) :
    decode s = .ok (pairBytes rem) ∧
    asStr (bufferFmt Alphabet.Lower (pairBytes rem)) =
      '0' :: 'x' :: rem.map Char.toLower := by
  have hlen : (utf8Encode rem).length = 64 := by
    rw [utf8Encode_hex_length hhex, hcount]
  refine ⟨decode_ok hstrip hlen hhex, ?_⟩
  rw [bufferFmt, fmt_pairBytes rem hhex (by rw [hcount])]
  rw [asStr, List.map_cons, List.map_cons, List.map_map,
    show Char.ofNat 0x30 = '0' from by decide,
    show Char.ofNat 0x78 = 'x' from by decide]
  have : ∀ c ∈ rem, (Char.ofNat ∘ fun c => (Char.toLower c).toNat) c =
      Char.toLower c := fun c _ => Char.ofNat_toNat _
  rw [List.map_congr_left this]

/-- **C3**: round-trip.  For every 32-byte value and either alphabet,
decoding the formatted string yields the bytes back; and for every
syntactically valid canonical string (optional `0x` prefix plus 64 hex
digits of either case), formatting the decoded bytes with the lowercase
alphabet reproduces the string normalized to lowercase with the `0x`
prefix. -/
theorem roundtrip_spec :
    (∀ (a : Alphabet) (l : List Nat), l.length = 32 → (∀ b ∈ l, b < 256) →
      decode (asStr (bufferFmt a l)) = .ok l) ∧
    (∀ (s rem : List Char) (off : Nat), stripped s = (rem, off) →
      rem.length = 64 → (∀ c ∈ rem, isHexDigit c) →
      decode s = .ok (pairBytes rem) ∧
      asStr (bufferFmt Alphabet.Lower (pairBytes rem)) =
        '0' :: 'x' :: rem.map Char.toLower) :=
  ⟨fun a l h1 h2 => decode_bufferFmt a l h1 h2,
    fun _ _ _ h1 h2 h3 => bufferFmt_decode h1 h2 h3⟩

/-- Witness for **C3**: the 32-byte value `0xee…ee` round-trips through the
uppercase alphabet, and the canonical string `0xEE…EE` decodes and
re-encodes to its lowercased form. -/
theorem roundtrip_spec_witness :
    decode (asStr (bufferFmt Alphabet.Upper (List.replicate 32 0xee))) =
      .ok (List.replicate 32 0xee) ∧
    decode ('0' :: 'x' :: List.replicate 64 'E') =
      .ok (pairBytes (List.replicate 64 'E')) ∧
    asStr (bufferFmt Alphabet.Lower (pairBytes (List.replicate 64 'E'))) =
      '0' :: 'x' :: (List.replicate 64 'E').map Char.toLower := by
  refine ⟨roundtrip_spec.1 Alphabet.Upper (List.replicate 32 0xee)
    (by decide) (by decide), ?_, ?_⟩
  · exact (roundtrip_spec.2 ('0' :: 'x' :: List.replicate 64 'E')
      (List.replicate 64 'E') 2 (by decide) (by decide) (by decide)).1
  · exact (roundtrip_spec.2 ('0' :: 'x' :: List.replicate 64 'E')
      (List.replicate 64 'E') 2 (by decide) (by decide) (by decide)).2

theorem flatten_fmtByte_getD (a : Alphabet) :
    ∀ (l : List Nat) (i : Nat), i < l.length →
      ((l.map (fmtByte a)).flatten.getD (2 * i) 0 =
        lutAt a (l.getD i 0 / 16) ∧
       (l.map (fmtByte a)).flatten.getD (2 * i + 1) 0 =
        lutAt a (l.getD i 0 % 16)) := by
  intro l
  induction l with
  | nil => intro i hi; exact absurd hi (by simp)
  | cons b t ih =>
    intro i hi
    cases i with
    | zero => exact ⟨rfl, rfl⟩
    | succ j =>
      have hj : j < t.length := by
        rw [List.length_cons] at hi
        omega
      have h := ih j hj
      simp only [List.map_cons, List.flatten_cons, fmtByte, List.cons_append,
        List.nil_append]
      rw [show 2 * (j + 1) = 2 * j + 1 + 1 from by ring]
      simp only [List.getD_cons_succ, List.getD_cons_zero]
      exact ⟨h.1, h.2⟩

/-- **C4**: for every 32-byte input and either alphabet, formatting (a total
operation) produces a 66-byte buffer holding `0x` at positions 0–1 and, for
the byte at index `i`, its high nibble's table entry at position `2 + 2i`
and its low nibble's at `3 + 2i`; the full view is all 66 characters and the
unprefixed view is the same buffer's last 64 characters. -/
theorem bufferFmt_positions_spec (a : Alphabet) (l : List Nat)
    (hlen : l.length = 32) :
    (bufferFmt a l).length = 66 ∧
    (bufferFmt a l).getD 0 0 = 0x30 ∧ (bufferFmt a l).getD 1 0 = 0x78 ∧
    (∀ i, i < 32 →
      (bufferFmt a l).getD (2 + 2 * i) 0 = lutAt a (l.getD i 0 / 16) ∧
      (bufferFmt a l).getD (3 + 2 * i) 0 = lutAt a (l.getD i 0 % 16)) ∧
    (asStr (bufferFmt a l)).length = 66 ∧
    asBytesStr (bufferFmt a l) = (asStr (bufferFmt a l)).drop 2 ∧
    (asBytesStr (bufferFmt a l)).length = 64 := by
  have hfl : ((l.map (fmtByte a)).flatten).length = 64 := by
    rw [flatten_fmtByte_length, hlen]
  refine ⟨?_, rfl, rfl, ?_, ?_, rfl, ?_⟩
  · rw [bufferFmt, List.length_cons, List.length_cons, hfl]
  · intro i hi
    have h := flatten_fmtByte_getD a l i (by omega)
    constructor
    · rw [show 2 + 2 * i = 2 * i + 1 + 1 from by ring, bufferFmt,
        List.getD_cons_succ, List.getD_cons_succ]
      exact h.1
    · rw [show 3 + 2 * i = (2 * i + 1) + 1 + 1 from by ring, bufferFmt,
        List.getD_cons_succ, List.getD_cons_succ]
      exact h.2
  · rw [asStr, List.length_map, bufferFmt, List.length_cons, List.length_cons, hfl]
  · rw [asBytesStr, asStr, List.length_drop, List.length_map, bufferFmt,
      List.length_cons, List.length_cons, hfl]

/-- Witness for **C4** at the all-zero digest with the lowercase alphabet. -/
theorem bufferFmt_positions_spec_witness :
    (bufferFmt Alphabet.Lower (List.replicate 32 0)).length = 66 ∧
    (bufferFmt Alphabet.Lower (List.replicate 32 0)).getD 2 0 = 0x30 ∧
    (asBytesStr (bufferFmt Alphabet.Lower (List.replicate 32 0))).length = 64 := by
  have h := bufferFmt_positions_spec Alphabet.Lower (List.replicate 32 0) (by decide)
  refine ⟨h.1, ?_, h.2.2.2.2.2.2⟩
  have := (h.2.2.2.1 0 (by decide)).1
  rw [show 2 + 2 * 0 = 2 from by ring] at this
  rw [this]
  decide

/-- **C5**: for every `Digest`, the `Display` and `Debug` renderings always
carry the `0x` prefix and draw every digit from the lowercase table; the
explicit `LowerHex`/`UpperHex` renderers carry the prefix exactly when the
alternate (`#`) mode is requested and render the bare 64 digits otherwise. -/
theorem digestDisplay_spec (d : Digest) (hlen : d.bytes.length = 32)
    (hbytes : ∀ b ∈ d.bytes, b < 256) :
    displayStr d = '0' :: 'x' ::
      ((d.bytes.map (fmtByte Alphabet.Lower)).flatten.map Char.ofNat) ∧
    (∀ b ∈ (d.bytes.map (fmtByte Alphabet.Lower)).flatten,
      b ∈ Alphabet.Lower.lut) ∧
    debugStr d = "Digest(".toList ++ displayStr d ++ [')'] ∧
    lowerHexStr true d = displayStr d ∧
    lowerHexStr false d =
      (d.bytes.map (fmtByte Alphabet.Lower)).flatten.map Char.ofNat ∧
    (lowerHexStr false d).length = 64 ∧
    upperHexStr true d = '0' :: 'x' ::
      ((d.bytes.map (fmtByte Alphabet.Upper)).flatten.map Char.ofNat) ∧
    (∀ b ∈ (d.bytes.map (fmtByte Alphabet.Upper)).flatten,
      b ∈ Alphabet.Upper.lut) ∧
    upperHexStr false d =
      (d.bytes.map (fmtByte Alphabet.Upper)).flatten.map Char.ofNat ∧
    (upperHexStr false d).length = 64 := by
  have hdisp : displayStr d = '0' :: 'x' ::
      ((d.bytes.map (fmtByte Alphabet.Lower)).flatten.map Char.ofNat) := by
    rw [displayStr, asStr, bufferFmt, List.map_cons, List.map_cons,
      show Char.ofNat 0x30 = '0' from by decide,
      show Char.ofNat 0x78 = 'x' from by decide]
    rfl
  have hlow : (lowerHexStr false d).length = 64 := by
    rw [lowerHexStr, if_neg (by simp), asBytesStr, asStr, List.length_drop,
      List.length_map, bufferFmt, List.length_cons, List.length_cons,
      flatten_fmtByte_length, hlen]
  have hupp : (upperHexStr false d).length = 64 := by
    rw [upperHexStr, if_neg (by simp), asBytesStr, asStr, List.length_drop,
      List.length_map, bufferFmt, List.length_cons, List.length_cons,
      flatten_fmtByte_length, hlen]
  refine ⟨hdisp, flatten_fmtByte_mem _ _ hbytes, rfl, hdisp ▸ rfl, ?_, hlow,
    ?_, flatten_fmtByte_mem _ _ hbytes, ?_, hupp⟩
  · rw [lowerHexStr, if_neg (by simp), asBytesStr, asStr, bufferFmt,
      List.map_cons, List.map_cons, List.drop_succ_cons, List.drop_succ_cons,
      List.drop_zero]
  · rw [upperHexStr, if_pos rfl, asStr, bufferFmt, List.map_cons, List.map_cons,
      show Char.ofNat 0x30 = '0' from by decide,
      show Char.ofNat 0x78 = 'x' from by decide]
  · rw [upperHexStr, if_neg (by simp), asBytesStr, asStr, bufferFmt,
      List.map_cons, List.map_cons, List.drop_succ_cons, List.drop_succ_cons,
      List.drop_zero]

/-- Witness for **C5** at the digest `0xee…ee`. -/
theorem digestDisplay_spec_witness :
    displayStr ⟨List.replicate 32 0xee⟩ =
      '0' :: 'x' :: List.replicate 64 'e' ∧
    lowerHexStr false ⟨List.replicate 32 0xee⟩ = List.replicate 64 'e' ∧
    upperHexStr true ⟨List.replicate 32 0xee⟩ =
      '0' :: 'x' :: List.replicate 64 'E' := by
  have h := digestDisplay_spec ⟨List.replicate 32 0xee⟩ (by decide) (by decide)
  refine ⟨?_, ?_, ?_⟩
  · rw [h.1]; decide
  · rw [h.2.2.2.2.1]; decide
  · rw [h.2.2.2.2.2.2.1]; decide

set_option maxRecDepth 100000 in
/-- **C7**: hashing is chunk-invariant — finalizing after any sequence of
`update` calls equals the one-shot hash of the concatenation; in particular
`"Hello "` then `"Ethereum!"` equals the one-shot hash of
`"Hello Ethereum!"`, which is
`0x67e083fb08738b8d7984e349687fec5bf03224c2dad4906020dfab9a0e4ceeac`. -/
theorem keccak_chunk_spec :
    (∀ chunks : List (List Nat),
      (chunks.foldl Keccak.update Keccak.new).finalize =
        Digest.of chunks.flatten) ∧
    ((Keccak.new.update (utf8Encode "Hello ".toList)).update
        (utf8Encode "Ethereum!".toList)).finalize =
      Digest.of (utf8Encode "Hello Ethereum!".toList) ∧
    Digest.of (utf8Encode "Hello Ethereum!".toList) =
      ⟨[0x67, 0xe0, 0x83, 0xfb, 0x08, 0x73, 0x8b, 0x8d,
        0x79, 0x84, 0xe3, 0x49, 0x68, 0x7f, 0xec, 0x5b,
        0xf0, 0x32, 0x24, 0xc2, 0xda, 0xd4, 0x90, 0x60,
        0x20, 0xdf, 0xab, 0x9a, 0x0e, 0x4c, 0xee, 0xac]⟩ := by
  have key : ∀ (cs : List (List Nat)) (acc : List Nat),
      (cs.foldl Keccak.update ⟨acc⟩).acc = acc ++ cs.flatten := by
    intro cs
    induction cs with
    | nil => intro acc; simp
    | cons c t ih =>
      intro acc
      rw [List.foldl_cons, List.flatten_cons,
        show Keccak.update ⟨acc⟩ c = ⟨acc ++ c⟩ from rfl, ih (acc ++ c),
        List.append_assoc]
  refine ⟨?_, by decide, by decide⟩
  intro chunks
  rw [Keccak.finalize, show (Keccak.new : Keccak) = ⟨[]⟩ from rfl,
    key chunks []]
  rfl

/-- **C8**: serde string deserialization fails with the distinct
missing-prefix error on every string not starting with `0x`, and on
`0x`-prefixed strings delegates the remainder to the hex decoder, succeeding
exactly when it succeeds. -/
theorem visitStr_spec (s : List Char) :
    (strip0x s = none ↔ ∀ r, s ≠ '0' :: 'x' :: r) ∧
    (strip0x s = none →
      visitStr s = .error (.custom "missing `0x`-prefix".toList)) ∧
    (∀ r, s = '0' :: 'x' :: r →
      (∀ b, decode r = .ok b → visitStr s = .ok ⟨b⟩) ∧
      (∀ e, decode r = .error e →
        visitStr s = .error (.custom e.message))) := by
  refine ⟨strip0x_none_iff s, ?_, ?_⟩
  · intro h
    rw [visitStr, h]
  · rintro r rfl
    have hs : strip0x ('0' :: 'x' :: r) = some r := rfl
    constructor
    · intro b hb
      simp only [visitStr, hs, fromStr, hb]
      rfl
    · intro e he
      simp only [visitStr, hs, fromStr, he]
      rfl

/-- Witness for **C8**: 64 bare digits are rejected with the missing-prefix
error; the prefixed string decodes. -/
theorem visitStr_spec_witness :
    visitStr (List.replicate 64 'e') =
      .error (.custom "missing `0x`-prefix".toList) ∧
    visitStr ('0' :: 'x' :: List.replicate 64 'e') =
      .ok ⟨List.replicate 32 0xee⟩ := by
  constructor
  · exact (visitStr_spec (List.replicate 64 'e')).2.1 (by decide)
  · exact ((visitStr_spec ('0' :: 'x' :: List.replicate 64 'e')).2.2
      (List.replicate 64 'e') rfl).1 (List.replicate 32 0xee) (by decide)

/-- **C9**: the digest literal fails (with the diagnostic
`invalid digest literal: <codec error message>` anchored at the literal's
span) exactly when hex-decoding the literal's content fails, and the hash
literal never fails, emitting the Keccak-256 of the content. -/
theorem literal_macros_spec (span : Nat) (content : List Char) :
    (∀ e, decode content = .error e →
      generateDigest span content =
        .error ⟨"invalid digest literal: ".toList ++ e.message, some span⟩) ∧
    (∀ b, decode content = .ok b → generateDigest span content = .ok b) ∧
    generateKeccak content = .ok (keccak256 (utf8Encode content)) := by
  refine ⟨?_, ?_, rfl⟩
  · intro e he
    simp only [generateDigest, he]
  · intro b hb
    simp only [generateDigest, hb]

/-- Witness for **C9**: a short literal fails the build with the
`InvalidLength` message at its span; a valid literal and any hash literal
succeed. -/
theorem literal_macros_spec_witness :
    generateDigest 7 "xyz".toList =
      .error ⟨"invalid digest literal: invalid hex string length".toList,
        some 7⟩ ∧
    generateDigest 7 ('0' :: 'x' :: List.replicate 64 'e') =
      .ok (List.replicate 32 0xee) ∧
    generateKeccak "not hex at all!".toList =
      .ok (keccak256 (utf8Encode "not hex at all!".toList)) := by
  refine ⟨?_, ?_, (literal_macros_spec 7 "not hex at all!".toList).2.2⟩
  · rw [(literal_macros_spec 7 "xyz".toList).1 .InvalidLength (by decide)]
    decide
  · exact (literal_macros_spec 7 ('0' :: 'x' :: List.replicate 64 'e')).2.1
      (List.replicate 32 0xee) (by decide)

/-- **C10**: for every 64-character valid hex string `h`, the doubly
prefixed string `0x0x` + `h` deserializes successfully to the digest decoded
from `h`: the deserializer strips one `0x` and the hex decoder strips the
second. -/
theorem doublePrefix_spec (h : List Char) (hlen : h.length = 64)
    (hhex : ∀ c ∈ h, isHexDigit c) :
    decode h = .ok (pairBytes h) ∧
    visitStr ('0' :: 'x' :: '0' :: 'x' :: h) = .ok ⟨pairBytes h⟩ := by
  have hbytes : (utf8Encode h).length = 64 := by
    rw [utf8Encode_hex_length hhex, hlen]
  have hnone : strip0x h = none := by
    cases h with
    | nil => simp at hlen
    | cons c0 t =>
      cases t with
      | nil => simp at hlen
      | cons c1 r =>
        rw [strip0x, if_neg]
        rintro ⟨rfl, rfl⟩
        exact absurd (hhex 'x' (by simp)) (by decide)
  have hnostrip : stripped h = (h, 0) := by
    simp only [stripped, hnone]
  refine ⟨decode_ok hnostrip hbytes hhex, ?_⟩
  have hs : strip0x ('0' :: 'x' :: '0' :: 'x' :: h) = some ('0' :: 'x' :: h) := rfl
  have hdec2 : decode ('0' :: 'x' :: h) = .ok (pairBytes h) :=
    decode_ok (stripped_0x _) hbytes hhex
  simp only [visitStr, hs, fromStr, hdec2]
  rfl

/-- Witness for **C10** at `h` = 64 `e`s. -/
theorem doublePrefix_spec_witness :
    visitStr ('0' :: 'x' :: '0' :: 'x' :: List.replicate 64 'e') =
      .ok ⟨pairBytes (List.replicate 64 'e')⟩ ∧
    pairBytes (List.replicate 64 'e') = List.replicate 32 0xee :=
  ⟨(doublePrefix_spec (List.replicate 64 'e') (by decide) (by decide)).2,
    by decide⟩

end Ethdigest
